import Mathlib

/-!
Verification development for the `rel`/`grimoire` database-access core:
a shallow embedding of `changes.go` (the tracked-change log), `query.go`
(the immutable query-descriptor builder, preload helpers and the error
translator) and `primary_key.go`, together with proofs of the documented
properties.
-/

set_option maxHeartbeats 1000000

namespace Rel

/-- Values stored in a `Change` (the Go `interface{}` payloads this package
actually stores: nil, integers and strings). -/
inductive Val : Type where
  | vnil : Val
  | int (n : Int) : Val
  | str (s : String) : Val
  deriving DecidableEq, Repr

/-- `ChangeOp` from changes.go (ChangeSetOp | ChangeIncOp | ChangeDecOp |
ChangeFragmentOp). -/
inductive ChangeOp : Type where
  | set | inc | dec | fragment
  deriving DecidableEq, Repr

/-- `Change` from changes.go: one atomic mutation `{Type, Field, Value}`
(`Type` is renamed `type` because `Type` is reserved in Lean). -/
structure Change : Type where
  type : ChangeOp
  Field : String
  Value : Val
  deriving DecidableEq, Repr

/-- The Go zero value of `Change`. -/
def Change.zero : Change := ⟨.set, "", .vnil⟩

/-- `AssocChanges` from changes.go, parameterised by the child change-log type
to break the mutual recursion with `Changes`. -/
structure AssocChangesF (α : Type) : Type where
  Changes : List α
  StaleIDs : Option (List Val)

/-- `Changes` from changes.go: `Fields` and `Assoc` are Go maps (modelled as
functions to `Option Nat`), `Changes` and `AssocChanges` are the parallel
ordered sequences (projections renamed `changes`/`assocChanges` because the
Go field names coincide with the type names). -/
inductive Changes : Type where
  | mk (Fields : String → Option Nat) (changesL : List Change)
       (Assoc : String → Option Nat) (assocChangesL : List (AssocChangesF Changes))

/-- `AssocChanges` from changes.go. -/
abbrev AssocChanges : Type := AssocChangesF Changes

/-- The Go zero value of `AssocChanges`. -/
def AssocChanges.zero : AssocChanges := ⟨[], none⟩

def Changes.Fields (c : Changes) : String → Option Nat :=
  match c with
  | .mk f _ _ _ => f

def Changes.changes (c : Changes) : List Change :=
  match c with
  | .mk _ l _ _ => l

def Changes.Assoc (c : Changes) : String → Option Nat :=
  match c with
  | .mk _ _ a _ => a

def Changes.assocChanges (c : Changes) : List AssocChanges :=
  match c with
  | .mk _ _ _ al => al

/-- `Changes.Empty` from changes.go: `len(c.Changes) == 0`. -/
def Changes.Empty (c : Changes) : Bool := c.changes.length == 0

/-- `Changes.Get` from changes.go. Go returns `(Change{}, false)` when the
field is absent; when present it returns `c.Changes[index]`. -/
def Changes.Get (c : Changes) (field : String) : Change × Bool :=
  match c.Fields field with
  | some index => (c.changes.getD index Change.zero, true)
  | none => (Change.zero, false)

/-- `Changes.Set` from changes.go: upsert by field name; overwrite in place
when present, else record the position and append. -/
def Changes.Set (c : Changes) (ch : Change) : Changes :=
  match c.Fields ch.Field with
  | some index => .mk c.Fields (c.changes.set index ch) c.Assoc c.assocChanges
  | none =>
      .mk (fun g => if g = ch.Field then some c.changes.length else c.Fields g)
        (c.changes ++ [ch]) c.Assoc c.assocChanges

/-- `Changes.GetValue` from changes.go. -/
def Changes.GetValue (c : Changes) (field : String) : Val × Bool :=
  let p := c.Get field
  (p.1.Value, p.2)

/-- `Set` from changes.go (the `Change` constructor for `ChangeSetOp`). -/
def Set (field : String) (value : Val) : Change := ⟨.set, field, value⟩

/-- `Changes.SetValue` from changes.go. -/
def Changes.SetValue (c : Changes) (field : String) (value : Val) : Changes :=
  c.Set (Rel.Set field value)

/-- `Changes.GetAssoc` from changes.go. -/
def Changes.GetAssoc (c : Changes) (field : String) : AssocChanges × Bool :=
  match c.Assoc field with
  | some index => (c.assocChanges.getD index AssocChanges.zero, true)
  | none => (AssocChanges.zero, false)

/-- `Changes.appendAssoc` from changes.go. -/
def Changes.appendAssoc (c : Changes) (field : String) (ac : AssocChanges) : Changes :=
  .mk c.Fields c.changes
    (fun g => if g = field then some c.assocChanges.length else c.Assoc g)
    (c.assocChanges ++ [ac])

/-- `Changes.SetAssoc` from changes.go: when present, only the `Changes`
component of the stored `AssocChanges` is replaced. -/
def Changes.SetAssoc (c : Changes) (field : String) (chs : List Changes) : Changes :=
  match c.Assoc field with
  | some index =>
      .mk c.Fields c.changes c.Assoc
        (c.assocChanges.set index
          ⟨chs, (c.assocChanges.getD index AssocChanges.zero).StaleIDs⟩)
  | none => c.appendAssoc field ⟨chs, none⟩

/-- `Changes.SetStaleAssoc` from changes.go: when present, only the
`StaleIDs` component of the stored `AssocChanges` is replaced. -/
def Changes.SetStaleAssoc (c : Changes) (field : String) (ids : Option (List Val)) : Changes :=
  match c.Assoc field with
  | some index =>
      .mk c.Fields c.changes c.Assoc
        (c.assocChanges.set index
          ⟨(c.assocChanges.getD index AssocChanges.zero).Changes, ids⟩)
  | none => c.appendAssoc field ⟨[], ids⟩

/-- `IncBy` from changes.go. -/
def IncBy (field : String) (n : Int) : Change := ⟨.inc, field, .int n⟩

/-- `Inc` from changes.go. -/
def Inc (field : String) : Change := IncBy field 1

/-- `DecBy` from changes.go. -/
def DecBy (field : String) (n : Int) : Change := ⟨.dec, field, .int n⟩

/-- `Dec` from changes.go. -/
def Dec (field : String) : Change := DecBy field 1

/-- `Change.Build` from changes.go: a single `Change` is a `Changer` whose
`Build` sets itself on the log. -/
def Change.Build (c : Change) (changes : Changes) : Changes := changes.Set c

/-- The empty log that `BuildChanges` starts from (fresh non-nil maps). -/
def emptyChanges : Changes := .mk (fun _ => none) [] (fun _ => none) []

/-- `BuildChanges` from changes.go, specialised to the only `Changer` in the
package (`Change`): fold the changers over a fresh log in order. -/
def BuildChanges (changers : List Change) : Changes :=
  changers.foldl (fun acc c => c.Build acc) emptyChanges

/-- One mutation step on a change log (the operations of claim C2). -/
inductive Op : Type where
  | set (ch : Change)
  | setAssoc (field : String) (chs : List Changes)
  | setStaleAssoc (field : String) (ids : Option (List Val))

def applyOp (c : Changes) : Op → Changes
  | .set ch => c.Set ch
  | .setAssoc f chs => c.SetAssoc f chs
  | .setStaleAssoc f ids => c.SetStaleAssoc f ids

def applyOps (c : Changes) (ops : List Op) : Changes := ops.foldl applyOp c

/-- Well-formedness of a change log: every key of `Fields` is a valid index
into `changes` whose entry carries that field name, and every key of `Assoc`
is a valid index into `assocChanges`. -/
def WF (c : Changes) : Prop :=
  (∀ f i, c.Fields f = some i →
      i < c.changes.length ∧ (c.changes.getD i Change.zero).Field = f) ∧
  (∀ f i, c.Assoc f = some i → i < c.assocChanges.length)

/-- Field names of a change sequence, in order. -/
def fieldsOf (l : List Change) : List String := l.map Change.Field

/-- One step of first-occurrence deduplication. -/
def dedupStep {α : Type} [DecidableEq α] (acc : List α) (a : α) : List α :=
  if a ∈ acc then acc else acc ++ [a]

/-- First-occurrence deduplication: keeps each element's first appearance,
preserving order. -/
def dedupFirst {α : Type} [DecidableEq α] (l : List α) : List α :=
  l.foldl dedupStep []

/-- The last change in `l` whose field is `f` (the "latest Set wins" value). -/
def lastFor (f : String) (l : List Change) : Option Change :=
  (l.filter (fun ch => ch.Field == f)).getLast?

/-- The inductive invariant of a freshly built change log: the field sequence
is the first-occurrence deduplication of the input fields, positions are
correctly indexed, and every stored change is the latest input change for its
field. -/
def BuildInv (l : List Change) : Prop :=
  fieldsOf (BuildChanges l).changes = dedupFirst (fieldsOf l) ∧
  (∀ f, (BuildChanges l).Fields f = none → f ∉ fieldsOf (BuildChanges l).changes) ∧
  (∀ i, i < (BuildChanges l).changes.length →
      (BuildChanges l).Fields (((BuildChanges l).changes.getD i Change.zero).Field) = some i) ∧
  (∀ i, i < (BuildChanges l).changes.length →
      lastFor (((BuildChanges l).changes.getD i Change.zero).Field) l
        = some ((BuildChanges l).changes.getD i Change.zero))

end Rel

namespace Grimoire

open Rel (Val)

/-- Modelled from the spec: an operand of the condition value model of the
external `c` package (not under src/): a column identifier `c.I(s)` or a
literal value. -/
inductive COperand : Type where
  | I (s : String)
  | val (v : Val)
  deriving DecidableEq, Repr

/-- Modelled from the spec: the `Condition` tree of the external `c` package
(not under src/): the empty condition, opaque caller-supplied atomic
conditions, equality of two operands, conjunction and disjunction. -/
inductive Cond : Type where
  | none
  | atom (n : Nat)
  | eq (l r : COperand)
  | and (l r : Cond)
  | or (l r : Cond)
  deriving DecidableEq, Repr

/-- Modelled from the spec: `c.And(conditions...)` — supplied conditions
"are combined with logical AND"; a single condition stands for itself and
the empty conjunction is the empty condition. -/
def cAnd : List Cond → Cond
  | [] => .none
  | [c] => c
  | c :: rest => .and c (cAnd rest)

/-- Modelled from the spec: `Condition.And`, used by `Where`/`Having` —
"`Where` conjoins"; an empty existing tree contributes nothing. -/
def Cond.andW (c : Cond) (conditions : List Cond) : Cond :=
  match c with
  | .none => cAnd conditions
  | d => .and d (cAnd conditions)

/-- Modelled from the spec: `Condition.Or`, used by `OrWhere`/`OrHaving` —
"disjoins the new conjunction with the existing condition tree as a whole
(i.e., `Or(existing, And(new...))`)"; an empty existing tree contributes
nothing. -/
def Cond.orW (c : Cond) (d : Cond) : Cond :=
  match c with
  | .none => d
  | e => .or e d

/-- Boolean semantics of a condition tree, given valuations for the opaque
atoms and for operand equalities (the empty condition filters nothing). -/
def Cond.eval (rho : Nat → Bool) (eps : COperand → COperand → Bool) : Cond → Bool
  | .none => true
  | .atom n => rho n
  | .eq l r => eps l r
  | .and l r => l.eval rho eps && r.eval rho eps
  | .or l r => l.eval rho eps || r.eval rho eps

/-- `c.Join` (the spec's Join value model): mode, joined collection and the
join condition. -/
structure CJoin : Type where
  Mode : String
  Collection : String
  Condition : Cond
  deriving DecidableEq, Repr

/-- The spec's opaque Order value model. -/
structure COrder : Type where
  raw : String
  deriving DecidableEq, Repr

/-- `Repo` as observed by `Query.Lock`: only the transaction flag. -/
structure Repo : Type where
  inTransaction : Bool
  deriving DecidableEq, Repr

/-- One Go `map[string]interface{}` value: an insertion-ordered association
list with unique keys. -/
abbrev PendingMap : Type := List (String × Val)

/-- Go map assignment `m[k] = v`: overwrite in place when the key exists,
otherwise add the binding. -/
def mapPut (m : PendingMap) (k : String) (v : Val) : PendingMap :=
  if m.any (fun p => p.1 == k) then m.map (fun p => if p.1 == k then (k, v) else p)
  else m ++ [(k, v)]

/-- The heap of allocated pending-changes maps; a Go map variable is nil or
a reference into it. -/
abbrev Heap : Type := List PendingMap

/-- `Query` from query.go. The Go field `Changes map[string]interface{}` is
a reference type and is modelled as an optional heap address `ChangesRef`;
all other fields are value types copied with the struct. -/
structure Query : Type where
  repo : Repo
  Collection : String
  Fields : List String
  AggregateField : String
  AggregateMode : String
  AsDistinct : Bool
  JoinClause : List CJoin
  Condition : Cond
  GroupFields : List String
  HavingCondition : Cond
  OrderClause : List COrder
  OffsetResult : Int
  LimitResult : Int
  LockClause : String
  ChangesRef : Option Nat
  deriving DecidableEq, Repr

/-- Go `strings.TrimSuffix`: drop the suffix when present, once. -/
def trimSuffix (s suffix : String) : String :=
  if suffix.data.isSuffixOf s.data then ⟨s.data.take (s.data.length - suffix.data.length)⟩
  else s

/-- `Query.Select` from query.go. -/
def Query.Select (query : Query) (fields : List String) : Query :=
  { query with Fields := fields }

/-- `Query.Distinct` from query.go. -/
def Query.Distinct (query : Query) : Query :=
  { query with AsDistinct := true }

/-- `Query.JoinWith` from query.go: with no explicit condition, synthesize
`<collection>.<singularized related>_id = <related>.id`; otherwise AND the
supplied conditions. -/
def Query.JoinWith (query : Query) (mode collection : String) (condition : List Cond) :
    Query :=
  if condition.length = 0 then
    { query with JoinClause := query.JoinClause ++
        [{ Mode := mode, Collection := collection,
           Condition := cAnd [Cond.eq
             (.I (query.Collection ++ "." ++ trimSuffix collection "s" ++ "_id"))
             (.I (collection ++ ".id"))] }] }
  else
    { query with JoinClause := query.JoinClause ++
        [{ Mode := mode, Collection := collection, Condition := cAnd condition }] }

/-- `Query.Join` from query.go. -/
def Query.Join (query : Query) (collection : String) (condition : List Cond) : Query :=
  query.JoinWith "JOIN" collection condition

/-- `Query.Where` from query.go. -/
def Query.Where (query : Query) (condition : List Cond) : Query :=
  { query with Condition := query.Condition.andW condition }

/-- `Query.OrWhere` from query.go. -/
def Query.OrWhere (query : Query) (condition : List Cond) : Query :=
  { query with Condition := query.Condition.orW (cAnd condition) }

/-- `Query.Group` from query.go. -/
def Query.Group (query : Query) (fields : List String) : Query :=
  { query with GroupFields := fields }

/-- `Query.Having` from query.go. -/
def Query.Having (query : Query) (condition : List Cond) : Query :=
  { query with HavingCondition := query.HavingCondition.andW condition }

/-- `Query.OrHaving` from query.go. -/
def Query.OrHaving (query : Query) (condition : List Cond) : Query :=
  { query with HavingCondition := query.HavingCondition.orW (cAnd condition) }

/-- `Query.Order` from query.go. -/
def Query.Order (query : Query) (order : List COrder) : Query :=
  { query with OrderClause := query.OrderClause ++ order }

/-- `Query.Offset` from query.go. -/
def Query.Offset (query : Query) (offset : Int) : Query :=
  { query with OffsetResult := offset }

/-- `Query.Limit` from query.go. -/
def Query.Limit (query : Query) (limit : Int) : Query :=
  { query with LimitResult := limit }

/-- `Query.Lock` from query.go: a no-op outside a transaction; default
clause `FOR UPDATE`. -/
def Query.Lock (query : Query) (lock : List String) : Query :=
  if !query.repo.inTransaction then query
  else
    match lock with
    | l :: _ => { query with LockClause := l }
    | [] => { query with LockClause := "FOR UPDATE" }

/-- `Query.FindBy` from query.go. -/
def Query.FindBy (query : Query) (col : String) (v : Val) : Query :=
  query.Where [Cond.eq (.I (query.Collection ++ "." ++ col)) (.val v)]

/-- `Query.Find` from query.go. -/
def Query.Find (query : Query) (id : Val) : Query :=
  query.FindBy "id" id

/-- `Query.Set` from query.go: allocate the map if nil, then write through
the (shared) map reference. -/
def Query.Set (query : Query) (h : Heap) (field : String) (value : Val) : Query × Heap :=
  match query.ChangesRef with
  | none => ({ query with ChangesRef := some h.length }, h ++ [mapPut [] field value])
  | some a => (query, h.set a (mapPut (h.getD a []) field value))

/-- The pending-changes contents observable through a descriptor. -/
def pendingOf (q : Query) (h : Heap) : Option PendingMap :=
  q.ChangesRef.map (fun a => h.getD a [])

/-- A fresh descriptor over a collection (all other fields Go zero values),
as built by the repository entry point. -/
def baseQuery (collection : String) : Query :=
  { repo := ⟨false⟩, Collection := collection, Fields := [], AggregateField := "",
    AggregateMode := "", AsDistinct := false, JoinClause := [], Condition := .none,
    GroupFields := [], HavingCondition := .none, OrderClause := [], OffsetResult := 0,
    LimitResult := 0, LockClause := "", ChangesRef := none }

/-- The kind of a relation slot `reflect.Value` as tested by
`collectPreloadTarget` (`fv.Kind()`): slice/array, pointer, or plain
struct value. -/
inductive SlotKind : Type where
  | seq
  | ptr
  | plain
  deriving DecidableEq, Repr

/-- The content of a relation slot. The zero value of a sequence slot is the
empty sequence. -/
inductive SlotVal : Type where
  | seq (l : List Val)
  | ptrv (o : Option Val)
  | plain (v : Val)
  deriving DecidableEq, Repr

/-- An owner's reference-field value (`preload[i].schema.FieldByIndex(refIndex)`):
a pointer (possibly nil) or a plain value. -/
inductive RefVal : Type where
  | ptr (o : Option Val)
  | plain (v : Val)
  deriving DecidableEq, Repr

/-- `preloadTarget` from query.go, with the owner's reference value already
read off and the relation slot identified by a location id and its kind. -/
structure PTarget : Type where
  ref : RefVal
  slot : Nat
  slotKind : SlotKind
  deriving DecidableEq, Repr

/-- `getPreloadID` from query.go: dereference a pointer reference, otherwise
the value itself. (Only reached on non-nil references; a nil pointer is
mapped to the zero value.) -/
def getPreloadID : RefVal → Val
  | .ptr (some v) => v
  | .ptr Option.none => .vnil
  | .plain v => v

/-- Whether a target's reference is a nil pointer (the
`refv.Kind() == reflect.Ptr && refv.IsNil()` skip test of
`collectPreloadTarget`). -/
def isNilRef : RefVal → Bool
  | .ptr Option.none => true
  | _ => false

/-- One iteration of the `collectPreloadTarget` loop: skip nil-pointer
references; otherwise reset a sequence slot to its zero value, record the
slot under the reference value, and record the reference value as a batch
key the first time it is seen. -/
def collectStep (acc : (Val → List Nat) × List Val × (Nat → SlotVal)) (t : PTarget) :
    (Val → List Nat) × List Val × (Nat → SlotVal) :=
  if isNilRef t.ref then acc
  else
    let addrs := acc.1
    let ids := acc.2.1
    let st := acc.2.2
    let id := getPreloadID t.ref
    let st' := if t.slotKind = .seq then
        (fun s => if s = t.slot then SlotVal.seq [] else st s) else st
    let addrs' := fun x => if x = id then addrs x ++ [t.slot] else addrs x
    let ids' := if (addrs' id).length = 1 then ids ++ [id] else ids
    (addrs', ids', st')

/-- `collectPreloadTarget` from query.go, with the slot store made explicit:
returns the owner-slot map `addrs`, the batch key list `ids`, and the store
after the sequence-slot resets. -/
def collectPreloadTarget (preload : List PTarget) (store : Nat → SlotVal) :
    (Val → List Nat) × List Val × (Nat → SlotVal) :=
  preload.foldl collectStep ((fun _ => []), [], store)

/-- The targets that are not skipped. -/
def validTargets (preload : List PTarget) : List PTarget :=
  preload.filter (fun t => !isNilRef t.ref)

/-- Specification of the owner-slot map: the slots of all non-skipped
targets whose reference value is `x`, in order. -/
def addrsSpec (preload : List PTarget) (x : Val) : List Nat :=
  ((validTargets preload).filter (fun t => getPreloadID t.ref == x)).map PTarget.slot

/-- Specification of the batch key list: the distinct reference values of
the non-skipped targets, preserving first-seen order. -/
def idsSpec (preload : List PTarget) : List Val :=
  Rel.dedupFirst ((validTargets preload).map (fun t => getPreloadID t.ref))

/-- Specification of the final slot store: every sequence slot of a
non-skipped target is reset to the empty sequence; all other slots keep
their previous content. -/
def storeSpec (preload : List PTarget) (store : Nat → SlotVal) (s : Nat) : SlotVal :=
  if (validTargets preload).any (fun t => t.slot == s && t.slotKind == SlotKind.seq) then
    SlotVal.seq []
  else store s

/-- Struct-field metadata tags read by the preload engine
(`references`, `foreign_key`, `db`). -/
structure GoTag : Type where
  references : String
  foreignKey : String
  db : String
  deriving DecidableEq, Repr

/-- A Go type as inspected by `getPreloadInfo`: a named struct with tagged
fields, a pointer/slice/array wrapper, or a base type. -/
inductive GoType : Type where
  | strukt (name : String) (fields : List (String × GoTag × GoType))
  | ptrTo (t : GoType)
  | sliceOf (t : GoType)
  | arrayOf (t : GoType)
  | base (name : String)

/-- Fields of a struct type (non-structs have none). -/
def GoType.structFields : GoType → List (String × GoTag × GoType)
  | .strukt _ fs => fs
  | _ => []

def lookupFieldAux : List (String × GoTag × GoType) → String → Nat →
    Option (GoTag × GoType × Nat)
  | [], _, _ => Option.none
  | (n, tag, t) :: rest, name, i =>
      if n = name then some (tag, t, i) else lookupFieldAux rest name (i + 1)

/-- `reflect.Type.FieldByName`: tag, type and index of the named field. -/
def GoType.fieldByName (rt : GoType) (name : String) : Option (GoTag × GoType × Nat) :=
  lookupFieldAux rt.structFields name 0

/-- `reflect.Type.Name` (wrappers have no name). -/
def GoType.name : GoType → String
  | .strukt n _ => n
  | .base n => n
  | .ptrTo _ => ""
  | .sliceOf _ => ""
  | .arrayOf _ => ""

/-- The `Elem()` step of `getPreloadInfo`: unwrap one pointer/slice/array. -/
def GoType.elem : GoType → GoType
  | .ptrTo t => t
  | .sliceOf t => t
  | .arrayOf t => t
  | t => t

/-- Modelled from the spec: the snake-casing applied to a Go field name by
the external snakecase library (not under src/): split words at
lower-to-upper transitions and before the last capital of an acronym that is
followed by a lower-case letter, lowercase everything and join with
underscores (so "ID" becomes "id" and "UserID" becomes "user_id"). -/
def snakeAux : List Char → List Char
  | [] => []
  | [c] => [c.toLower]
  | c₁ :: c₂ :: rest =>
    if c₁.isLower && c₂.isUpper then c₁.toLower :: '_' :: snakeAux (c₂ :: rest)
    else
      match rest with
      | c₃ :: _ =>
        if c₁.isUpper && c₂.isUpper && c₃.isLower then
          c₁.toLower :: '_' :: snakeAux (c₂ :: rest)
        else c₁.toLower :: snakeAux (c₂ :: rest)
      | [] => c₁.toLower :: snakeAux (c₂ :: rest)

def snakeCase (s : String) : String := ⟨snakeAux s.data⟩

/-- `getPreloadInfo` from query.go. Go panics (field not found) are
modelled as `Except.error`; the zero-`StructField` path for a missing
relation field, which ends in a panic in Go, is modelled as an immediate
error. -/
def getPreloadInfo (rt : GoType) (field : String) : Except String (Nat × Nat × String) :=
  match rt.fieldByName field with
  | Option.none => Except.error ("grimoire: field (" ++ field ++ ") not found")
  | some (sftTag, sftType, _) =>
    let ft := sftType.elem
    let rf :=
      if sftTag.references = "" ∨ sftTag.foreignKey = "" then
        if (rt.fieldByName (field ++ "ID")).isSome then (field ++ "ID", "ID")
        else ("ID", rt.name ++ "ID")
      else (sftTag.references, sftTag.foreignKey)
    match rt.fieldByName rf.1 with
    | Option.none => Except.error ("grimoire: references (" ++ rf.1 ++ ") field not found ")
    | some (_, _, refIndex) =>
      match ft.fieldByName rf.2 with
      | Option.none =>
          Except.error ("grimoire: foreign_key (" ++ rf.2 ++ ") field not found " ++ rf.2)
      | some (fkTag, _, fkIndex) =>
          let column := if fkTag.db ≠ "" then fkTag.db else snakeCase rf.2
          Except.ok (refIndex, fkIndex, column)

/-- A transaction record type: `ID`, a conventional `UserID` foreign key,
and an untagged relation field. -/
def transactionType : GoType :=
  .strukt "Transaction"
    [("ID", ⟨"", "", ""⟩, .base "int"),
     ("UserID", ⟨"", "", ""⟩, .base "int")]

/-- A user record type owning a has-many `Transactions` relation with no
explicit tags. -/
def userType : GoType :=
  .strukt "User"
    [("ID", ⟨"", "", ""⟩, .base "int"),
     ("Transactions", ⟨"", "", ""⟩, .sliceOf transactionType)]

/-- Modelled from the spec: a recognized domain error of the external errors
package (not under src/): a message and an error kind (taxonomy from the
spec: not-found, constraint violation, unexpected). -/
structure DomainError : Type where
  message : String
  field : String
  kind : Nat
  deriving DecidableEq, Repr

/-- Modelled from the spec: the `Unexpected` kind tag. -/
def unexpectedKind : Nat := 0

/-- Modelled from the spec: `errors.NewUnexpected` wraps a raw message into
a generic unexpected domain error. -/
def newUnexpected (msg : String) : DomainError := ⟨msg, "", unexpectedKind⟩

/-- Modelled from the spec: a raw persistence-layer error — either a
recognized domain error (`errors.Error`) or an unrecognized error carrying
only its message. -/
inductive GoErr : Type where
  | domain (e : DomainError)
  | raw (msg : String)
  deriving DecidableEq, Repr

/-- Modelled from the spec: a changeset's constraint registry
(`chs[0].Constraints().GetError(e)`), which may rewrite a recognized error
into a field-level constraint-violation error. -/
structure Changeset : Type where
  getError : DomainError → DomainError

/-- `transformError` from query.go: nil passes through; a recognized domain
error is returned as-is unless at least one changeset is supplied, in which
case the first one's constraint registry is consulted; anything else is
wrapped as an unexpected error carrying the original message. -/
def transformError (err : Option GoErr) (chs : List Changeset) : Option GoErr :=
  match err with
  | Option.none => Option.none
  | some (.domain e) =>
      match chs with
      | c :: _ => some (.domain (c.getError e))
      | [] => some (.domain e)
  | some (.raw msg) => some (.domain (newUnexpected msg))

/-- A record as seen by `getPrimaryKey` from primary_key.go: either it
implements the `primaryKey` interface (carrying its `PrimaryKey()` result)
or it does not. -/
inductive GoRecord : Type where
  | withPK (name : String) (value : Val)
  | plain
  deriving DecidableEq, Repr

/-- `getPrimaryKey` from primary_key.go: delegate to the record's own
`PrimaryKey()` when implemented; otherwise field `"id"` with value `0`
(the `withValue` branch is an empty TODO in the source). -/
def getPrimaryKey (record : GoRecord) (withValue : Bool) : String × Val :=
  match record with
  | .withPK n v => (n, v)
  | .plain => ("id", .int 0)

end Grimoire

namespace Rel

@[simp] theorem Changes.Fields_mk (f l a al) : (Changes.mk f l a al).Fields = f := rfl

@[simp] theorem Changes.changes_mk (f l a al) : (Changes.mk f l a al).changes = l := rfl

@[simp] theorem Changes.Assoc_mk (f l a al) : (Changes.mk f l a al).Assoc = a := rfl

@[simp] theorem Changes.assocChanges_mk (f l a al) :
    (Changes.mk f l a al).assocChanges = al := rfl

theorem WF_empty : WF emptyChanges := by
  refine ⟨fun f i h => ?_, fun f i h => ?_⟩ <;> simp [emptyChanges] at h

theorem getD_set_self {α : Type} (l : List α) (i : Nat) (a d : α) (h : i < l.length) :
    (l.set i a).getD i d = a := by
  simp [List.getD_eq_getElem?_getD, List.getElem?_set_self h]

theorem getD_set_ne {α : Type} (l : List α) {i j : Nat} (a d : α) (h : i ≠ j) :
    (l.set i a).getD j d = l.getD j d := by
  simp [List.getD_eq_getElem?_getD, List.getElem?_set_ne h]

theorem getD_append_lt {α : Type} (l l' : List α) {i : Nat} (d : α) (h : i < l.length) :
    (l ++ l').getD i d = l.getD i d := by
  simp [List.getD_eq_getElem?_getD, List.getElem?_append, h]

theorem getD_concat_length {α : Type} (l : List α) (a d : α) :
    (l ++ [a]).getD l.length d = a := by
  simp [List.getD_eq_getElem?_getD, List.getElem?_concat_length]

theorem getD_mem {α : Type} (l : List α) {i : Nat} (d : α) (h : i < l.length) :
    l.getD i d ∈ l := by
  rw [List.getD_eq_getElem?_getD, List.getElem?_eq_getElem h]
  exact List.getElem_mem h

theorem set_eq_self_of_getElem? {α : Type} (l : List α) (i : Nat) (a : α)
    (h : l[i]? = some a) : l.set i a = l := by
  have hi : i < l.length := by
    by_contra hn
    rw [List.getElem?_eq_none (Nat.le_of_not_lt hn)] at h
    exact Option.noConfusion h
  apply List.ext_getElem?
  intro n
  rw [List.getElem?_set]
  by_cases hin : i = n
  · subst hin
    simp [hi, h]
  · simp [hin]

theorem WF_Set {c : Changes} (h : WF c) (ch : Change) : WF (c.Set ch) := by
  obtain ⟨hf, ha⟩ := h
  cases hm : c.Fields ch.Field with
  | some index =>
    obtain ⟨hidx, hfield⟩ := hf _ _ hm
    refine ⟨fun f i hfi => ?_, fun f i hai => ?_⟩
    · simp only [Changes.Set, hm, Changes.Fields_mk, Changes.changes_mk] at hfi ⊢
      obtain ⟨hi, hfi'⟩ := hf _ _ hfi
      refine ⟨by simpa using hi, ?_⟩
      by_cases hij : index = i
      · subst hij
        rw [getD_set_self _ _ _ _ hidx]
        exact hfield.symm.trans hfi'
      · rw [getD_set_ne _ _ _ hij]
        exact hfi'
    · simp only [Changes.Set, hm, Changes.Assoc_mk, Changes.assocChanges_mk] at hai ⊢
      exact ha _ _ hai
  | none =>
    refine ⟨fun f i hfi => ?_, fun f i hai => ?_⟩
    · simp only [Changes.Set, hm, Changes.Fields_mk, Changes.changes_mk] at hfi ⊢
      by_cases hch : f = ch.Field
      · subst hch
        simp only [if_pos rfl] at hfi
        obtain rfl := Option.some_injective _ hfi
        refine ⟨by simp, ?_⟩
        rw [getD_concat_length]
      · rw [if_neg hch] at hfi
        obtain ⟨hi, hfi'⟩ := hf _ _ hfi
        refine ⟨by simp; omega, ?_⟩
        rw [getD_append_lt _ _ _ hi]
        exact hfi'
    · simp only [Changes.Set, hm, Changes.Assoc_mk, Changes.assocChanges_mk] at hai ⊢
      exact ha _ _ hai

theorem WF_appendAssoc {c : Changes} (h : WF c) (field : String) (ac : AssocChanges) :
    WF (c.appendAssoc field ac) := by
  obtain ⟨hf, ha⟩ := h
  refine ⟨fun f i hfi => ?_, fun f i hai => ?_⟩
  · simp only [Changes.appendAssoc, Changes.Fields_mk, Changes.changes_mk] at hfi ⊢
    exact hf _ _ hfi
  · simp only [Changes.appendAssoc, Changes.Assoc_mk, Changes.assocChanges_mk] at hai ⊢
    by_cases hch : f = field
    · rw [if_pos hch] at hai
      obtain rfl := Option.some_injective _ hai
      simp
    · rw [if_neg hch] at hai
      have := ha _ _ hai
      simp
      omega

theorem WF_SetAssoc {c : Changes} (h : WF c) (field : String) (chs : List Changes) :
    WF (c.SetAssoc field chs) := by
  cases hm : c.Assoc field with
  | some index =>
    obtain ⟨hf, ha⟩ := h
    refine ⟨fun f i hfi => ?_, fun f i hai => ?_⟩
    · simp only [Changes.SetAssoc, hm, Changes.Fields_mk, Changes.changes_mk] at hfi ⊢
      exact hf _ _ hfi
    · simp only [Changes.SetAssoc, hm, Changes.Assoc_mk, Changes.assocChanges_mk] at hai ⊢
      simpa using ha _ _ hai
  | none =>
    simp only [Changes.SetAssoc, hm]
    exact WF_appendAssoc h field _

theorem WF_SetStaleAssoc {c : Changes} (h : WF c) (field : String) (ids : Option (List Val)) :
    WF (c.SetStaleAssoc field ids) := by
  cases hm : c.Assoc field with
  | some index =>
    obtain ⟨hf, ha⟩ := h
    refine ⟨fun f i hfi => ?_, fun f i hai => ?_⟩
    · simp only [Changes.SetStaleAssoc, hm, Changes.Fields_mk, Changes.changes_mk] at hfi ⊢
      exact hf _ _ hfi
    · simp only [Changes.SetStaleAssoc, hm, Changes.Assoc_mk, Changes.assocChanges_mk] at hai ⊢
      simpa using ha _ _ hai
  | none =>
    simp only [Changes.SetStaleAssoc, hm]
    exact WF_appendAssoc h field _

theorem WF_applyOp {c : Changes} (h : WF c) (op : Op) : WF (applyOp c op) := by
  cases op with
  | set ch => exact WF_Set h ch
  | setAssoc f chs => exact WF_SetAssoc h f chs
  | setStaleAssoc f ids => exact WF_SetStaleAssoc h f ids

theorem WF_applyOps {c : Changes} (h : WF c) (ops : List Op) : WF (applyOps c ops) := by
  induction ops generalizing c with
  | nil => exact h
  | cons op rest ih => exact ih (WF_applyOp h op)

theorem WF_BuildChanges (changers : List Change) : WF (BuildChanges changers) := by
  suffices h : ∀ (c : Changes), WF c →
      WF (changers.foldl (fun acc ch => ch.Build acc) c) from h _ WF_empty
  induction changers with
  | nil => exact fun c hc => hc
  | cons ch rest ih => exact fun c hc => ih _ (WF_Set hc ch)

theorem dedupFirst_concat {α : Type} [DecidableEq α] (l : List α) (a : α) :
    dedupFirst (l ++ [a]) = dedupStep (dedupFirst l) a := by
  simp [dedupFirst, List.foldl_append]

theorem lastFor_concat_eq (f : String) (l : List Change) (ch : Change) (h : ch.Field = f) :
    lastFor f (l ++ [ch]) = some ch := by
  simp [lastFor, List.filter_append, h]

theorem lastFor_concat_ne (f : String) (l : List Change) (ch : Change) (h : ¬ ch.Field = f) :
    lastFor f (l ++ [ch]) = lastFor f l := by
  simp [lastFor, List.filter_append, h]

theorem mem_foldl_dedupStep {α : Type} [DecidableEq α] (l : List α) :
    ∀ (acc : List α) (a : α), a ∈ l.foldl dedupStep acc ↔ a ∈ acc ∨ a ∈ l := by
  induction l with
  | nil => simp
  | cons b rest ih =>
    intro acc a
    simp only [List.foldl_cons, ih, dedupStep]
    by_cases hb : b ∈ acc
    · rw [if_pos hb]
      constructor
      · rintro (h | h)
        · exact Or.inl h
        · exact Or.inr (List.mem_cons_of_mem _ h)
      · rintro (h | h)
        · exact Or.inl h
        · rcases List.mem_cons.mp h with rfl | h
          · exact Or.inl hb
          · exact Or.inr h
    · rw [if_neg hb]
      constructor
      · rintro (h | h)
        · rcases List.mem_append.mp h with h | h
          · exact Or.inl h
          · simp at h
            exact Or.inr (h ▸ List.mem_cons_self _ _)
        · exact Or.inr (List.mem_cons_of_mem _ h)
      · rintro (h | h)
        · exact Or.inl (List.mem_append.mpr (Or.inl h))
        · rcases List.mem_cons.mp h with rfl | h
          · exact Or.inl (by simp)
          · exact Or.inr h

theorem mem_dedupFirst {α : Type} [DecidableEq α] (l : List α) (a : α) :
    a ∈ dedupFirst l ↔ a ∈ l := by
  rw [dedupFirst, mem_foldl_dedupStep]
  simp

theorem BuildChanges_concat (l : List Change) (ch : Change) :
    BuildChanges (l ++ [ch]) = (BuildChanges l).Set ch := by
  simp [BuildChanges, List.foldl_append, Change.Build]

theorem getD_eq_getElem {α : Type} (l : List α) {i : Nat} (d : α) (h : i < l.length) :
    l.getD i d = l[i] := by
  rw [List.getD_eq_getElem?_getD, List.getElem?_eq_getElem h]
  rfl

theorem fieldsOf_concat (l : List Change) (ch : Change) :
    fieldsOf (l ++ [ch]) = fieldsOf l ++ [ch.Field] := by
  simp [fieldsOf]

theorem buildInv (l : List Change) : BuildInv l := by
  induction l using List.reverseRecOn with
  | nil =>
    refine ⟨rfl, fun f _ => ?_, fun i hi => ?_, fun i hi => ?_⟩ <;>
      simp [BuildChanges, emptyChanges, fieldsOf] at *
  | append_singleton l ch ih =>
    obtain ⟨ih1, ih2, ih3, ih4⟩ := ih
    have hwf := WF_BuildChanges l
    rw [BuildInv, BuildChanges_concat]
    cases hm : (BuildChanges l).Fields ch.Field with
    | some index =>
      obtain ⟨hidx, hfield⟩ := hwf.1 _ _ hm
      have hfield' : (BuildChanges l).changes[index].Field = ch.Field := by
        rw [← getD_eq_getElem _ Change.zero hidx]
        exact hfield
      have hset : fieldsOf ((BuildChanges l).changes.set index ch)
          = fieldsOf (BuildChanges l).changes := by
        rw [fieldsOf, List.map_set]
        apply set_eq_self_of_getElem?
        rw [List.getElem?_map, List.getElem?_eq_getElem hidx, Option.map_some', hfield']
      have hmem : ch.Field ∈ fieldsOf (BuildChanges l).changes := by
        rw [← hfield]
        exact List.mem_map_of_mem _ (getD_mem _ _ hidx)
      have hmem' : ch.Field ∈ dedupFirst (fieldsOf l) := ih1 ▸ hmem
      refine ⟨?_, ?_, ?_, ?_⟩
      · simp only [Changes.Set, hm, Changes.changes_mk]
        rw [hset, ih1, fieldsOf_concat, dedupFirst_concat]
        simp only [dedupStep]
        rw [if_pos hmem']
      · intro f hf
        simp only [Changes.Set, hm, Changes.Fields_mk, Changes.changes_mk] at hf ⊢
        rw [hset]
        exact ih2 f hf
      · intro i hi
        simp only [Changes.Set, hm, Changes.Fields_mk, Changes.changes_mk,
          List.length_set] at hi ⊢
        by_cases hij : index = i
        · subst hij
          rw [getD_set_self _ _ _ _ hidx, hm]
        · rw [getD_set_ne _ _ _ hij]
          exact ih3 i hi
      · intro i hi
        simp only [Changes.Set, hm, Changes.changes_mk, List.length_set] at hi ⊢
        by_cases hij : index = i
        · subst hij
          rw [getD_set_self _ _ _ _ hidx]
          exact lastFor_concat_eq _ _ _ rfl
        · rw [getD_set_ne _ _ _ hij]
          have hne : ¬ ch.Field = ((BuildChanges l).changes.getD i Change.zero).Field := by
            intro hcontra
            have h1 := ih3 i hi
            rw [← hcontra, hm] at h1
            exact hij (Option.some_injective _ h1)
          rw [lastFor_concat_ne _ _ _ hne]
          exact ih4 i hi
    | none =>
      have hnmem : ch.Field ∉ fieldsOf (BuildChanges l).changes := ih2 _ hm
      have hnmem' : ch.Field ∉ dedupFirst (fieldsOf l) := ih1 ▸ hnmem
      refine ⟨?_, ?_, ?_, ?_⟩
      · simp only [Changes.Set, hm, Changes.changes_mk]
        rw [fieldsOf_concat, fieldsOf_concat, dedupFirst_concat]
        simp only [dedupStep]
        rw [if_neg hnmem', ih1]
      · intro f hf
        simp only [Changes.Set, hm, Changes.Fields_mk, Changes.changes_mk] at hf ⊢
        by_cases hch : f = ch.Field
        · rw [if_pos hch] at hf
          exact Option.noConfusion hf
        · rw [if_neg hch] at hf
          rw [fieldsOf, List.map_append, ← fieldsOf, List.mem_append]
          rintro (hin | hin)
          · exact ih2 f hf hin
          · simp [fieldsOf] at hin
            exact hch hin
      · intro i hi
        simp only [Changes.Set, hm, Changes.Fields_mk, Changes.changes_mk,
          List.length_append, List.length_singleton] at hi ⊢
        rcases Nat.lt_succ_iff_lt_or_eq.mp hi with hlt | heq
        · rw [getD_append_lt _ _ _ hlt]
          have hfin : ((BuildChanges l).changes.getD i Change.zero).Field
              ∈ fieldsOf (BuildChanges l).changes :=
            List.mem_map_of_mem _ (getD_mem _ _ hlt)
          have hne : ¬ ((BuildChanges l).changes.getD i Change.zero).Field = ch.Field := by
            intro hcontra
            exact hnmem (hcontra ▸ hfin)
          rw [if_neg hne]
          exact ih3 i hlt
        · subst heq
          rw [getD_concat_length, if_pos rfl]
      · intro i hi
        simp only [Changes.Set, hm, Changes.changes_mk, List.length_append,
          List.length_singleton] at hi ⊢
        rcases Nat.lt_succ_iff_lt_or_eq.mp hi with hlt | heq
        · rw [getD_append_lt _ _ _ hlt]
          have hfin : ((BuildChanges l).changes.getD i Change.zero).Field
              ∈ fieldsOf (BuildChanges l).changes :=
            List.mem_map_of_mem _ (getD_mem _ _ hlt)
          have hne : ¬ ch.Field = ((BuildChanges l).changes.getD i Change.zero).Field := by
            intro hcontra
            exact hnmem (hcontra ▸ hfin)
          rw [lastFor_concat_ne _ _ _ hne]
          exact ih4 i hlt
        · subst heq
          rw [getD_concat_length]
          exact lastFor_concat_eq _ _ _ rfl

/-- C1: setting an already-present field overwrites its `Change` in place
without changing its position (the `Fields` index map is untouched and the
sequence is updated at the recorded index); for any sequence of `Set`
operations folded into a fresh log, the field sequence read back is the
first-insertion order of the input fields, and every stored change is the
latest input change for its field; in particular the log built from
`Set("name","Ann")`, `Inc("age")`, `Set("name","Bob")` has exactly the two
entries `name=Bob` (position 0) and `age` increment-by-1. -/
theorem c1_set_upsert_order_preserving :
    (∀ (c : Changes) (ch : Change) (index : Nat), c.Fields ch.Field = some index →
        (c.Set ch).Fields = c.Fields ∧ (c.Set ch).changes = c.changes.set index ch) ∧
    (∀ l : List Change, fieldsOf (BuildChanges l).changes = dedupFirst (fieldsOf l)) ∧
    (∀ (l : List Change) (i : Nat), i < (BuildChanges l).changes.length →
        lastFor (((BuildChanges l).changes.getD i Change.zero).Field) l
          = some ((BuildChanges l).changes.getD i Change.zero)) ∧
    (BuildChanges [Rel.Set "name" (.str "Ann"), Inc "age", Rel.Set "name" (.str "Bob")]).changes
      = [⟨.set, "name", .str "Bob"⟩, ⟨.inc, "age", .int 1⟩] := by
  refine ⟨?_, ?_, ?_, ?_⟩
  · intro c ch index h
    simp only [Changes.Set, h, Changes.Fields_mk, Changes.changes_mk]
    exact ⟨trivial, trivial⟩
  · exact fun l => (buildInv l).1
  · exact fun l i hi => (buildInv l).2.2.2 i hi
  · decide

/-- Witness for C1: a concrete one-field log, overwritten in place at
position 0. -/
theorem c1_set_upsert_order_preserving_witness :
    (BuildChanges [Rel.Set "a" (.int 1)]).Fields "a" = some 0 ∧
    ((BuildChanges [Rel.Set "a" (.int 1)]).Set (Rel.Set "a" (.int 2))).changes
      = (BuildChanges [Rel.Set "a" (.int 1)]).changes.set 0 (Rel.Set "a" (.int 2)) :=
  ⟨by decide,
   (c1_set_upsert_order_preserving.1 (BuildChanges [Rel.Set "a" (.int 1)])
      (Rel.Set "a" (.int 2)) 0 (by decide)).2⟩

/-- C2: every log reachable from a freshly built log by any interleaving of
`Set`, `SetAssoc` and `SetStaleAssoc` keeps `Fields` in sync with `changes`
(valid index, matching field name) and `Assoc` in sync with `assocChanges`
(valid index). -/
theorem c2_index_maps_in_sync (changers : List Change) (ops : List Op) :
    WF (applyOps (BuildChanges changers) ops) :=
  WF_applyOps (WF_BuildChanges changers) ops

/-- Witness for C2 at a concrete interleaving. -/
theorem c2_index_maps_in_sync_witness :
    WF (applyOps (BuildChanges [Rel.Set "a" (.int 1)])
      [.setAssoc "tags" [], .set (Inc "n"), .setStaleAssoc "tags" (some [.int 7])]) :=
  c2_index_maps_in_sync [Rel.Set "a" (.int 1)]
    [.setAssoc "tags" [], .set (Inc "n"), .setStaleAssoc "tags" (some [.int 7])]

/-- C9: after `SetStaleAssoc(log, f, ids)`, `GetAssoc(log, f)` reports found
and returns exactly the `ids` passed in as `StaleIDs`; in particular a nil
sequence reads back nil, and an empty-but-non-nil sequence reads back empty
and non-nil. -/
theorem c9_stale_assoc_roundtrip (c : Changes) (f : String) (ids : Option (List Val))
    (hwf : WF c) :
    ((c.SetStaleAssoc f ids).GetAssoc f).2 = true ∧
    ((c.SetStaleAssoc f ids).GetAssoc f).1.StaleIDs = ids := by
  cases hm : c.Assoc f with
  | some index =>
    have hidx := hwf.2 _ _ hm
    have h2 : (c.SetStaleAssoc f ids).GetAssoc f
        = ((⟨(c.assocChanges.getD index AssocChanges.zero).Changes, ids⟩ : AssocChanges),
           true) := by
      simp only [Changes.SetStaleAssoc, hm, Changes.GetAssoc, Changes.Assoc_mk,
        Changes.assocChanges_mk]
      show ((c.assocChanges.set index
        ⟨(c.assocChanges.getD index AssocChanges.zero).Changes, ids⟩).getD index
          AssocChanges.zero, true) = _
      rw [getD_set_self _ _ _ _ hidx]
    rw [h2]
    exact ⟨rfl, rfl⟩
  | none =>
    have h2 : (c.SetStaleAssoc f ids).GetAssoc f = ((⟨[], ids⟩ : AssocChanges), true) := by
      simp only [Changes.SetStaleAssoc, hm, Changes.appendAssoc, Changes.GetAssoc,
        Changes.Assoc_mk, Changes.assocChanges_mk]
      simp only [if_true]
      show ((c.assocChanges ++ [(⟨[], ids⟩ : AssocChanges)]).getD c.assocChanges.length
        AssocChanges.zero, true) = _
      rw [getD_concat_length]
    rw [h2]
    exact ⟨rfl, rfl⟩

/-- Witness for C9: the spec's own scenario,
`SetStaleAssociationIDs(log, "tags", nil)` then `GetAssociation(log, "tags")`
returns nil `StaleIDs`, and the empty-but-non-nil variant reads back
empty-but-non-nil. -/
theorem c9_stale_assoc_roundtrip_witness :
    WF emptyChanges ∧
    ((emptyChanges.SetStaleAssoc "tags" none).GetAssoc "tags").2 = true ∧
    ((emptyChanges.SetStaleAssoc "tags" none).GetAssoc "tags").1.StaleIDs = none ∧
    ((emptyChanges.SetStaleAssoc "tags" (some [])).GetAssoc "tags").1.StaleIDs = some [] :=
  ⟨WF_empty,
   (c9_stale_assoc_roundtrip emptyChanges "tags" none WF_empty).1,
   (c9_stale_assoc_roundtrip emptyChanges "tags" none WF_empty).2,
   (c9_stale_assoc_roundtrip emptyChanges "tags" (some []) WF_empty).2⟩

end Rel

namespace Grimoire

open Rel (Val)

theorem Cond.orW_eval_of_ne (c d : Cond) (h : c ≠ Cond.none) (rho : Nat → Bool)
    (eps : COperand → COperand → Bool) :
    (c.orW d).eval rho eps = (c.eval rho eps || d.eval rho eps) := by
  cases c <;> simp [Cond.orW, Cond.eval] at h ⊢

/-- C3: on a descriptor with no accumulated condition, `Where(A).OrWhere(B)`
is logically equivalent to `Or(A, B)` and `Where(A).Where(B).OrWhere(C)` to
`Or(And(A,B), C)`; moreover `OrWhere` (and `OrHaving`) always disjoin the
new conjunction with the entire accumulated condition tree as a whole —
structurally the result is `existing.Or(And(new...))`, and whenever the
accumulated tree is non-empty its evaluation is the disjunction of the whole
old tree with the new conjunction. -/
theorem c3_orwhere_disjoins_whole_tree :
    (∀ (q : Query) (A B : Cond) (rho : Nat → Bool) (eps : COperand → COperand → Bool),
        q.Condition = Cond.none → A ≠ Cond.none →
        ((q.Where [A]).OrWhere [B]).Condition.eval rho eps = (Cond.or A B).eval rho eps) ∧
    (∀ (q : Query) (A B C : Cond) (rho : Nat → Bool) (eps : COperand → COperand → Bool),
        q.Condition = Cond.none → A ≠ Cond.none →
        (((q.Where [A]).Where [B]).OrWhere [C]).Condition.eval rho eps
          = (Cond.or (Cond.and A B) C).eval rho eps) ∧
    (∀ (q : Query) (cs : List Cond),
        (q.OrWhere cs).Condition = q.Condition.orW (cAnd cs)) ∧
    (∀ (q : Query) (cs : List Cond),
        (q.OrHaving cs).HavingCondition = q.HavingCondition.orW (cAnd cs)) ∧
    (∀ (c d : Cond) (rho : Nat → Bool) (eps : COperand → COperand → Bool),
        c ≠ Cond.none → (c.orW d).eval rho eps = (c.eval rho eps || d.eval rho eps)) := by
  refine ⟨?_, ?_, fun q cs => rfl, fun q cs => rfl,
    fun c d rho eps h => Cond.orW_eval_of_ne c d h rho eps⟩
  · intro q A B rho eps hq hA
    simp only [Query.Where, Query.OrWhere, hq, Cond.andW, cAnd]
    rw [Cond.orW_eval_of_ne _ _ hA]
    rfl
  · intro q A B C rho eps hq hA
    simp only [Query.Where, Query.OrWhere, hq, Cond.andW, cAnd]
    cases A with
    | none => exact absurd rfl hA
    | atom n => rfl
    | eq l r => rfl
    | and l r => rfl
    | or l r => rfl

/-- Witness for C3 at concrete conditions and valuations. -/
theorem c3_orwhere_disjoins_whole_tree_witness :
    ((baseQuery "t").Condition = Cond.none) ∧ (Cond.atom 0 ≠ Cond.none) ∧
    (((baseQuery "t").Where [.atom 0]).OrWhere [.atom 1]).Condition.eval
        (fun n => n == 1) (fun _ _ => false)
      = (Cond.or (.atom 0) (.atom 1)).eval (fun n => n == 1) (fun _ _ => false) ∧
    ((((baseQuery "t").Where [.atom 0]).Where [.atom 1]).OrWhere [.atom 2]).Condition.eval
        (fun n => n == 1) (fun _ _ => false)
      = (Cond.or (Cond.and (.atom 0) (.atom 1)) (.atom 2)).eval
          (fun n => n == 1) (fun _ _ => false) :=
  ⟨rfl, by decide,
   c3_orwhere_disjoins_whole_tree.1 (baseQuery "t") (.atom 0) (.atom 1) _ _ rfl (by decide),
   c3_orwhere_disjoins_whole_tree.2.1 (baseQuery "t") (.atom 0) (.atom 1) (.atom 2) _ _ rfl
     (by decide)⟩

/-- C4: `JoinWith` (hence `Join`) with no explicit condition synthesizes
exactly the equality join condition
`<collection>.<related-with-trailing-s-stripped>_id = <related>.id`; with
conditions supplied, they are AND-combined and used verbatim; in particular
`Join("comments")` on a descriptor over `"posts"` synthesizes
`posts.comment_id = comments.id`. -/
theorem c4_join_condition_convention :
    (∀ (q : Query) (mode collection : String),
        (q.JoinWith mode collection []).JoinClause
          = q.JoinClause ++ [⟨mode, collection,
              Cond.eq (.I (q.Collection ++ "." ++ trimSuffix collection "s" ++ "_id"))
                      (.I (collection ++ ".id"))⟩]) ∧
    (∀ (q : Query) (mode collection : String) (cs : List Cond), cs ≠ [] →
        (q.JoinWith mode collection cs).JoinClause
          = q.JoinClause ++ [⟨mode, collection, cAnd cs⟩]) ∧
    (∀ (q : Query) (collection : String) (cs : List Cond),
        q.Join collection cs = q.JoinWith "JOIN" collection cs) ∧
    (((baseQuery "posts").Join "comments" []).JoinClause
      = [⟨"JOIN", "comments", Cond.eq (.I "posts.comment_id") (.I "comments.id")⟩]) := by
  refine ⟨fun q mode collection => rfl, ?_, fun q collection cs => rfl, by decide⟩
  intro q mode collection cs hcs
  have hlen : ¬ cs.length = 0 := fun h => hcs (List.length_eq_zero.mp h)
  simp only [Query.JoinWith, if_neg hlen]

/-- Witness for C4: explicit conditions are AND-combined and used verbatim. -/
theorem c4_join_condition_convention_witness :
    ([Cond.atom 0, Cond.atom 1] ≠ ([] : List Cond)) ∧
    (((baseQuery "posts").JoinWith "LEFT JOIN" "comments" [.atom 0, .atom 1]).JoinClause
      = (baseQuery "posts").JoinClause
          ++ [⟨"LEFT JOIN", "comments", cAnd [.atom 0, .atom 1]⟩]) :=
  ⟨by decide,
   c4_join_condition_convention.2.1 (baseQuery "posts") "LEFT JOIN" "comments"
     [.atom 0, .atom 1] (by decide)⟩

/-- C5 counterexample: `Set` is not copy-on-write for the pendingChanges
map. Build `q1` by one `Set` (allocating its map), then call the builder
method `Set` again on `q1`: the contents of `q1`'s own pendingChanges map
change, refuting the claim that every builder method leaves all observable
fields of the receiver — including the pendingChanges contents —
unchanged. -/
theorem c5_counterexample_set_mutates_receiver :
    pendingOf ((baseQuery "t").Set [] "a" (.int 1)).1
        ((((baseQuery "t").Set [] "a" (.int 1)).1.Set
          (((baseQuery "t").Set [] "a" (.int 1)).2) "b" (.int 2)).2)
      ≠ pendingOf ((baseQuery "t").Set [] "a" (.int 1)).1
          (((baseQuery "t").Set [] "a" (.int 1)).2) := by
  decide

/-- C5 amended: every builder method other than `Set` is a pure function of
the descriptor value and cannot mutate the receiver (captured by its
embedding type); `Set` also leaves the receiver's struct fields unchanged
and, when the receiver's map is nil, allocates a fresh map so the receiver's
observable pendingChanges stay unchanged — but when the receiver's map is
already allocated, the new binding is written through the shared map and is
visible through the receiver. -/
theorem c5_amended_set_aliasing :
    (∀ (q : Query) (h : Heap) (field : String) (value : Val),
        q.ChangesRef = none →
          (q.Set h field value).1 = { q with ChangesRef := some h.length } ∧
          pendingOf q ((q.Set h field value).2) = pendingOf q h) ∧
    (∀ (q : Query) (h : Heap) (a : Nat) (field : String) (value : Val),
        q.ChangesRef = some a → a < h.length →
          (q.Set h field value).1 = q ∧
          pendingOf q ((q.Set h field value).2) = some (mapPut (h.getD a []) field value)) := by
  constructor
  · intro q h field value hq
    refine ⟨?_, ?_⟩
    · simp [Query.Set, hq]
    · simp [Query.Set, hq, pendingOf]
  · intro q h a field value hq ha
    refine ⟨?_, ?_⟩
    · simp [Query.Set, hq]
    · simp only [Query.Set, hq, pendingOf, Option.map_some']
      rw [Rel.getD_set_self _ _ _ _ ha]

/-- Witness for C5 amended, at the counterexample's own input: the write is
visible through the receiver `q1`. -/
theorem c5_amended_set_aliasing_witness :
    (((baseQuery "t").Set [] "a" (.int 1)).1.ChangesRef = some 0) ∧
    ((0 : Nat) < (((baseQuery "t").Set [] "a" (.int 1)).2).length) ∧
    pendingOf ((baseQuery "t").Set [] "a" (.int 1)).1
        ((((baseQuery "t").Set [] "a" (.int 1)).1.Set
          (((baseQuery "t").Set [] "a" (.int 1)).2) "b" (.int 2)).2)
      = some (mapPut ((((baseQuery "t").Set [] "a" (.int 1)).2).getD 0 []) "b" (.int 2)) :=
  ⟨by decide, by decide,
   (c5_amended_set_aliasing.2 ((baseQuery "t").Set [] "a" (.int 1)).1
     (((baseQuery "t").Set [] "a" (.int 1)).2) 0 "b" (.int 2) (by decide) (by decide)).2⟩

theorem collectPreloadTarget_concat (ps : List PTarget) (t : PTarget)
    (store : Nat → SlotVal) :
    collectPreloadTarget (ps ++ [t]) store = collectStep (collectPreloadTarget ps store) t := by
  simp [collectPreloadTarget, List.foldl_append]

theorem validTargets_concat (ps : List PTarget) (t : PTarget) :
    validTargets (ps ++ [t])
      = validTargets ps ++ (if isNilRef t.ref then [] else [t]) := by
  by_cases h : isNilRef t.ref <;>
    simp [validTargets, List.filter_append, List.filter_cons, h]

theorem addrsSpec_concat_skip (ps : List PTarget) (t : PTarget)
    (h : isNilRef t.ref = true) (x : Val) :
    addrsSpec (ps ++ [t]) x = addrsSpec ps x := by
  simp [addrsSpec, validTargets_concat, h]

theorem idsSpec_concat_skip (ps : List PTarget) (t : PTarget)
    (h : isNilRef t.ref = true) :
    idsSpec (ps ++ [t]) = idsSpec ps := by
  simp [idsSpec, validTargets_concat, h]

theorem storeSpec_concat_skip (ps : List PTarget) (t : PTarget) (store : Nat → SlotVal)
    (h : isNilRef t.ref = true) (s : Nat) :
    storeSpec (ps ++ [t]) store s = storeSpec ps store s := by
  simp [storeSpec, validTargets_concat, h]

theorem addrsSpec_concat_valid (ps : List PTarget) (t : PTarget)
    (h : isNilRef t.ref = false) (x : Val) :
    addrsSpec (ps ++ [t]) x
      = addrsSpec ps x ++ (if getPreloadID t.ref = x then [t.slot] else []) := by
  by_cases hx : getPreloadID t.ref = x <;>
    simp [addrsSpec, validTargets_concat, h, List.filter_append, List.filter_cons, hx]

theorem idsSpec_concat_valid (ps : List PTarget) (t : PTarget)
    (h : isNilRef t.ref = false) :
    idsSpec (ps ++ [t]) = Rel.dedupStep (idsSpec ps) (getPreloadID t.ref) := by
  simp [idsSpec, validTargets_concat, h, List.map_append, Rel.dedupFirst_concat]

theorem addrsSpec_eq_nil_iff (ps : List PTarget) (x : Val) :
    addrsSpec ps x = [] ↔ x ∉ idsSpec ps := by
  rw [idsSpec, Rel.mem_dedupFirst]
  simp only [addrsSpec, List.map_eq_nil_iff, List.filter_eq_nil_iff, beq_iff_eq,
    List.mem_map, not_exists]
  constructor
  · rintro h t ⟨ht, hid⟩
    exact h t ht hid
  · intro h t ht hid
    exact h t ⟨ht, hid⟩

/-- C6: `collectPreloadTarget` skips every target whose reference is a nil
pointer (contributing neither a slot entry nor a batch key); the returned
batch keys are the distinct reference values in first-seen order; the
returned map sends each reference value to the slots of all owners sharing
it, in order; and every sequence-typed slot of a recorded target is reset to
its empty zero value, all other slots keeping their previous content. -/
theorem c6_collect_preload_target (preload : List PTarget) (store : Nat → SlotVal) :
    (∀ x, (collectPreloadTarget preload store).1 x = addrsSpec preload x) ∧
    ((collectPreloadTarget preload store).2.1 = idsSpec preload) ∧
    (∀ s, (collectPreloadTarget preload store).2.2 s = storeSpec preload store s) := by
  induction preload using List.reverseRecOn with
  | nil =>
    refine ⟨fun x => rfl, rfl, fun s => ?_⟩
    simp [collectPreloadTarget, storeSpec, validTargets]
  | append_singleton ps t ih =>
    obtain ⟨ihA, ihI, ihS⟩ := ih
    rw [collectPreloadTarget_concat]
    by_cases h : isNilRef t.ref
    · simp only [collectStep, if_pos h]
      refine ⟨fun x => ?_, ?_, fun s => ?_⟩
      · rw [ihA x, addrsSpec_concat_skip ps t h x]
      · rw [ihI, idsSpec_concat_skip ps t h]
      · rw [ihS s, storeSpec_concat_skip ps t store h s]
    · have h' : isNilRef t.ref = false := by simpa using h
      simp only [collectStep, if_neg h]
      refine ⟨fun x => ?_, ?_, fun s => ?_⟩
      · rw [addrsSpec_concat_valid ps t h' x]
        by_cases hx : x = getPreloadID t.ref
        · rw [if_pos hx, if_pos hx.symm, ihA x]
        · rw [if_neg hx, if_neg (fun hc => hx hc.symm), ihA x, List.append_nil]
      · rw [idsSpec_concat_valid ps t h']
        simp only [if_true]
        rw [ihA, List.length_append]
        by_cases hnil : addrsSpec ps (getPreloadID t.ref) = []
        · rw [if_pos (by rw [hnil]; rfl), ihI, Rel.dedupStep,
            if_neg ((addrsSpec_eq_nil_iff ps _).mp hnil)]
        · have hlen : ¬ (addrsSpec ps (getPreloadID t.ref)).length + [t.slot].length = 1 := by
            have : addrsSpec ps (getPreloadID t.ref) ≠ [] := hnil
            have hpos : 0 < (addrsSpec ps (getPreloadID t.ref)).length :=
              List.length_pos.mpr this
            simp only [List.length_singleton]
            omega
          rw [if_neg hlen, ihI, Rel.dedupStep,
            if_pos (by
              by_contra hmem
              exact hnil ((addrsSpec_eq_nil_iff ps _).mpr hmem))]
      · by_cases hk : t.slotKind = SlotKind.seq
        · by_cases hs : s = t.slot
          · rw [if_pos hk]
            subst hs
            rw [if_pos rfl]
            simp [storeSpec, validTargets_concat, h', List.any_append, hk]
          · rw [if_pos hk, if_neg hs, ihS s]
            have hpred : (t.slot == s && t.slotKind == SlotKind.seq) = false := by
              simp [beq_iff_eq]
              intro hc
              exact absurd hc.symm hs
            simp [storeSpec, validTargets_concat, h', List.any_append, hpred]
        · rw [if_neg hk, ihS s]
          have hpred : (t.slot == s && t.slotKind == SlotKind.seq) = false := by
            simp [beq_iff_eq]
            intro _
            exact hk
          simp [storeSpec, validTargets_concat, h', List.any_append, hpred]

/-- C7: when the reference/foreign-key pair is not fully declared via field
tags, `getPreloadInfo` infers it by convention — if the owner type has a
field `<Relation>ID` the relation is belongs-to with
`reference = <Relation>ID` and `foreignKey = ID`, otherwise
`reference = ID` and `foreignKey = <OwnerType>ID`; the resolved foreign-key
column is the `db` tag override when declared on the foreign-key field,
otherwise the snake-cased foreign-key field name. -/
theorem c7_preload_info_convention :
    ∀ (rt : GoType) (field : String) (sftTag : GoTag) (sftType : GoType) (i : Nat),
      rt.fieldByName field = some (sftTag, sftType, i) →
      (sftTag.references = "" ∨ sftTag.foreignKey = "") →
      (∀ (tagB : GoTag) (tB : GoType) (j : Nat),
          rt.fieldByName (field ++ "ID") = some (tagB, tB, j) →
          ∀ (fkTag : GoTag) (tFk : GoType) (k : Nat),
            sftType.elem.fieldByName "ID" = some (fkTag, tFk, k) →
            getPreloadInfo rt field
              = Except.ok (j, k, if fkTag.db ≠ "" then fkTag.db else snakeCase "ID")) ∧
      (rt.fieldByName (field ++ "ID") = Option.none →
        ∀ (tagR : GoTag) (tR : GoType) (j : Nat),
          rt.fieldByName "ID" = some (tagR, tR, j) →
          ∀ (fkTag : GoTag) (tFk : GoType) (k : Nat),
            sftType.elem.fieldByName (rt.name ++ "ID") = some (fkTag, tFk, k) →
            getPreloadInfo rt field
              = Except.ok (j, k, if fkTag.db ≠ "" then fkTag.db
                  else snakeCase (rt.name ++ "ID"))) := by
  intro rt field sftTag sftType i hf hOr
  constructor
  · intro tagB tB j hB fkTag tFk k hFk
    rcases hOr with hr | hk
    · simp [getPreloadInfo, hf, hB, hFk, hr]
    · simp [getPreloadInfo, hf, hB, hFk, hk]
  · intro hNone tagR tR j hID fkTag tFk k hFk
    rcases hOr with hr | hk
    · simp [getPreloadInfo, hf, hNone, hID, hFk, hr]
    · simp [getPreloadInfo, hf, hNone, hID, hFk, hk]

/-- Witness for C7: the has-many convention on a concrete owner type —
`reference = ID`, `foreignKey = UserID`, column snake-cased to
`user_id`. -/
theorem c7_preload_info_convention_witness :
    userType.fieldByName "Transactions"
        = some (⟨"", "", ""⟩, .sliceOf transactionType, 1) ∧
    ((⟨"", "", ""⟩ : GoTag).references = "" ∨ (⟨"", "", ""⟩ : GoTag).foreignKey = "") ∧
    userType.fieldByName "TransactionsID" = Option.none ∧
    userType.fieldByName "ID" = some (⟨"", "", ""⟩, .base "int", 0) ∧
    (GoType.sliceOf transactionType).elem.fieldByName (userType.name ++ "ID")
        = some (⟨"", "", ""⟩, .base "int", 1) ∧
    getPreloadInfo userType "Transactions" = Except.ok (0, 1, "user_id") :=
  ⟨rfl, Or.inl rfl, rfl, rfl, rfl,
   ((c7_preload_info_convention userType "Transactions" ⟨"", "", ""⟩
       (.sliceOf transactionType) 1 rfl (Or.inl rfl)).2 rfl ⟨"", "", ""⟩ (.base "int") 0 rfl
       ⟨"", "", ""⟩ (.base "int") 1 rfl).trans (by rfl)⟩

/-- C8: the error translator maps nil to nil; a recognized domain error is
returned unchanged unless at least one changeset is supplied, in which case
the first changeset's constraint registry is consulted and may rewrite it;
an unrecognized error is wrapped into a generic unexpected domain error
carrying the original message. -/
theorem c8_transform_error :
    (∀ chs, transformError Option.none chs = Option.none) ∧
    (∀ e, transformError (some (.domain e)) [] = some (.domain e)) ∧
    (∀ e c rest, transformError (some (.domain e)) (c :: rest)
        = some (.domain (c.getError e))) ∧
    (∀ msg chs, transformError (some (.raw msg)) chs = some (.domain (newUnexpected msg)) ∧
        (newUnexpected msg).message = msg) :=
  ⟨fun _ => rfl, fun _ => rfl, fun _ _ _ => rfl, fun _ _ => ⟨rfl, rfl⟩⟩

/-- C10: a record implementing the primaryKey interface yields exactly its
own `PrimaryKey()` pair; any other record yields `("id", 0)` regardless of
the `withValue` flag. -/
theorem c10_get_primary_key :
    (∀ (n : String) (v : Val) (withValue : Bool),
        getPrimaryKey (.withPK n v) withValue = (n, v)) ∧
    (∀ withValue : Bool, getPrimaryKey .plain withValue = ("id", .int 0)) :=
  ⟨fun _ _ _ => rfl, fun _ => rfl⟩

end Grimoire
